/-
Verification of the DSP core of the AvSynth / PanTronic synthesizer plugin.

The definitions below are a shallow embedding of the C++ sources:
  * `src/PluginProcessor.{hpp,cpp}` — oscillator waveforms (`getOscSample`,
    `getFluteWaveform`), the oscillator-kind parameter (`createParameterLayout`
    and `ChainSettings::Get`), and the MIDI drain loop of `processBlock`;
  * `src/ChorusEffect.{hpp,cpp}` — `DelayLine` and `ChorusEffect`;
  * `src/Utils.hpp` — `LinearRamp`.
Floating-point samples are modelled as real numbers (or as elements of an
arbitrary linear ordered field with a floor, so that the same definitions can
be evaluated exactly over `ℚ`); `int` indices become `ℕ`/`ℤ`.
-/
import Mathlib

namespace AvSynth

/-! ## Oscillator kinds (`PluginProcessor.hpp` line 19, `PluginProcessor.cpp`)

`enum class OscType { Sine, Square, Saw, Triangle, Flute, NumTypes }`.
`magic_enum::enum_name` yields the identifier spelling of each enumerator,
modelled by `OscType.name` below. -/

inductive OscType where
  | Sine
  | Square
  | Saw
  | Triangle
  | Flute
  | NumTypes
deriving DecidableEq, Repr

/-- `magic_enum::enum_name<OscType::...>()`: the identifier string of each
enumerator. -/
def OscType.name : OscType → String
  | .Sine => "Sine"
  | .Square => "Square"
  | .Saw => "Saw"
  | .Triangle => "Triangle"
  | .Flute => "Flute"
  | .NumTypes => "NumTypes"

/-- The `juce::StringArray` passed to the `AudioParameterChoice` for
`Parameters::OscType` in `createParameterLayout`
(`PluginProcessor.cpp` lines 658–661): in source order, the names of
`OscType::Sine`, `OscType::Saw`, `OscType::Square`, `OscType::Triangle`. -/
def oscChoices : List String :=
  [OscType.Sine.name, OscType.Saw.name, OscType.Square.name, OscType.Triangle.name]

/-- `static_cast<OscType>(static_cast<int>(value))` in `ChainSettings::Get`
(`PluginProcessor.cpp` lines 36–37): the integer is interpreted by the
enumerator values of `OscType`, which are 0, 1, 2, 3, 4, 5 in declaration
order. Values past the last enumerator are clamped to the sentinel
`NumTypes`; only 0–3 can actually be stored by the four-entry choice
parameter. -/
def castOscType (n : ℕ) : OscType :=
  match n with
  | 0 => .Sine
  | 1 => .Square
  | 2 => .Saw
  | 3 => .Triangle
  | 4 => .Flute
  | _ => .NumTypes

/-! ## Oscillator waveforms (`PluginProcessor.cpp` lines 490–535) -/

open Real in
/-- `AvSynthAudioProcessor::getFluteWaveform` (`PluginProcessor.cpp`
lines 490–504). -/
noncomputable def getFluteWaveform (angle : ℝ) : ℝ :=
  let fundamental := sin angle
  let harmonic2 := 0.3 * sin (2.0 * angle)
  let harmonic3 := 0.15 * sin (3.0 * angle)
  let harmonic4 := 0.05 * sin (4.0 * angle)
  let harmonic5 := 0.08 * sin (5.0 * angle)
  let breathModulation := 1.0 + 0.02 * sin (angle * 0.1)
  (fundamental + harmonic2 + harmonic3 + harmonic4 + harmonic5) * breathModulation * 0.8

open Real in
/-- `AvSynthAudioProcessor::getOscSample` (`PluginProcessor.cpp`
lines 516–535).  `juce::MathConstants<double>::twoPi` is `2π`; `std::floor`
on the reals is `Int.floor`. -/
noncomputable def getOscSample (type : OscType) (angle : ℝ) : ℝ :=
  match type with
  | .Sine => sin angle
  | .Square => if sin angle ≥ 0.0 then 1.0 else -1.0
  | .Saw =>
      2.0 * (angle / (2 * π) - ⌊0.5 + angle / (2 * π)⌋)
  | .Triangle =>
      2.0 * |2.0 * (angle / (2 * π) - ⌊0.5 + angle / (2 * π)⌋)| - 1.0
  | .Flute => getFluteWaveform angle
  | .NumTypes => 0.0

/-! ## `LinearRamp` (`Utils.hpp` lines 27–84)

The C++ class is a template over the value type `T`; we keep that
polymorphism (a `DivisionRing` supplies `+`, `-`, `*`, `/` and the casts the
template requires), so that the very same definitions run exactly over `ℚ`
and instantiate over `ℝ`. -/

structure LinearRamp (α : Type) where
  current : α
  increment : α
  remainingSteps : ℤ

/-- `LinearRamp::reset` (`Utils.hpp` lines 48–52).  `reset` overwrites all
three data members, so it is modelled as a constructor.  `T{}` is `0`. -/
def LinearRamp.reset {α : Type} [DivisionRing α] (start e : α) (steps : ℤ) :
    LinearRamp α :=
  { current := start
    increment := if steps > 0 then (e - start) / (steps : α) else 0
    remainingSteps := steps }

/-- `LinearRamp::getNext` (`Utils.hpp` lines 66–78): returns the current
value and the advanced ramp state (the C++ method mutates `*this`). -/
def LinearRamp.getNext {α : Type} [DivisionRing α] (r : LinearRamp α) :
    α × LinearRamp α :=
  let value := r.current
  let active : ℤ := if r.remainingSteps > 0 then 1 else 0
  (value,
    { current := r.current + r.increment * (active : α)
      increment := r.increment
      remainingSteps := r.remainingSteps - active })

/-- The state of a `LinearRamp` after `n` calls to `getNext`. -/
def LinearRamp.run {α : Type} [DivisionRing α] (r : LinearRamp α) : ℕ → LinearRamp α
  | 0 => r
  | n + 1 => (r.run n).getNext.2

/-! ## `DelayLine` (`ChorusEffect.hpp` lines 17–60)

A circular buffer of samples plus a write cursor.  As with `LinearRamp`, the
sample type is a parameter (`float` in the source): a `LinearOrderedField`
with a `FloorRing` provides the arithmetic, order and `std::floor`/`(int)`
truncation used by `read`. -/

structure DelayLine (α : Type) where
  buffer : List α
  writeIndex : ℕ

/-- `DelayLine::setSize` (`ChorusEffect.hpp` lines 23–26): called once on the
freshly constructed delay line (whose vector is empty), so
`buffer.resize(size, 0.0f)` fills the buffer with `size` zeros and the write
index is reset to `0`. -/
def DelayLine.setSize (α : Type) [Zero α] (size : ℕ) : DelayLine α :=
  { buffer := List.replicate size 0
    writeIndex := 0 }

/-- `DelayLine::write` (`ChorusEffect.hpp` lines 32–35). -/
def DelayLine.write {α : Type} (d : DelayLine α) (sample : α) : DelayLine α :=
  { buffer := d.buffer.set d.writeIndex sample
    writeIndex := (d.writeIndex + 1) % d.buffer.length }

/-- The two normalisation `while` loops of `DelayLine::read`
(`ChorusEffect.hpp` lines 47–48): starting from `x`, add `size` while
negative, then subtract `size` while `≥ size`.  For `size > 0` they
terminate at the unique representative of `x` modulo `size` inside
`[0, size)`, which is `x - size * ⌊x / size⌋`. -/
def wrapIndex {α : Type} [LinearOrderedField α] [FloorRing α] (x : α) (size : ℕ) : α :=
  x - (size : α) * ⌊x / (size : α)⌋

/-- `DelayLine::read` (`ChorusEffect.hpp` lines 45–55).  `static_cast<int>`
on the (nonnegative, after normalisation) read index is `Int.floor`
followed by `Int.toNat`; the out-of-range default of `List.getD` is never
reached when the buffer is nonempty. -/
def DelayLine.read {α : Type} [LinearOrderedField α] [FloorRing α]
    (d : DelayLine α) (delayInSamples : α) : α :=
  let size := d.buffer.length
  let readIndex := wrapIndex ((d.writeIndex : α) - delayInSamples) size
  let index1 := (⌊readIndex⌋).toNat
  let index2 := (index1 + 1) % size
  let fraction := readIndex - (index1 : α)
  d.buffer.getD index1 0 * (1 - fraction) + d.buffer.getD index2 0 * fraction

/-- A sequence of `DelayLine::write` calls, first element written first. -/
def DelayLine.writeAll {α : Type} (d : DelayLine α) (xs : List α) : DelayLine α :=
  xs.foldl DelayLine.write d

/-! ## `ChorusEffect` (`ChorusEffect.hpp` lines 71–162, `ChorusEffect.cpp`)

Samples are real numbers.  The audio buffer handed to `processBlock` is the
stereo case of the source (`numChannels = 2`, the plugin's bus layout):
a list of (left, right) sample pairs, processed in place. -/

/-- `juce::jlimit (lowerLimit, upperLimit, value)`:
`value < lower ? lower : (upper < value ? upper : value)`. -/
def jlimit {α : Type} [LinearOrder α] (lo hi v : α) : α :=
  if v < lo then lo else if hi < v then hi else v

/-- `ChorusEffect::maxDelayTime` (`ChorusEffect.hpp` line 152). -/
noncomputable def maxDelayTime : ℝ := 0.05

/-- `ChorusEffect::baseDelayTime` (`ChorusEffect.hpp` line 153). -/
noncomputable def baseDelayTime : ℝ := 0.01

structure ChorusEffect where
  sampleRate : ℝ
  rate : ℝ
  depth : ℝ
  feedback : ℝ
  mix : ℝ
  lfoPhase : ℝ
  lfoPhaseIncrement : ℝ
  leftDelayLine : DelayLine ℝ
  rightDelayLine : DelayLine ℝ

/-- The member initialisers of `ChorusEffect` (`ChorusEffect.hpp`
lines 143–161): the delay lines start as empty vectors. -/
noncomputable def ChorusEffect.init : ChorusEffect :=
  { sampleRate := 44100.0
    rate := 0.5
    depth := 0.5
    feedback := 0.3
    mix := 0.5
    lfoPhase := 0.0
    lfoPhaseIncrement := 0.0
    leftDelayLine := { buffer := [], writeIndex := 0 }
    rightDelayLine := { buffer := [], writeIndex := 0 } }

/-- `ChorusEffect::updateLFO` (`ChorusEffect.cpp` lines 102–107). -/
noncomputable def ChorusEffect.updateLFO (c : ChorusEffect) : ChorusEffect :=
  { c with lfoPhaseIncrement := c.rate / c.sampleRate }

/-- `ChorusEffect::prepare` (`ChorusEffect.cpp` lines 16–31).
`static_cast<int>(sampleRate * maxDelayTime)` truncates the (nonnegative)
product, i.e. `Int.floor` + `Int.toNat`. -/
noncomputable def ChorusEffect.prepare (c : ChorusEffect) (newSampleRate : ℝ) :
    ChorusEffect :=
  let c := { c with sampleRate := newSampleRate }
  let delayBufferSize := (⌊c.sampleRate * maxDelayTime⌋).toNat + 1
  let c := { c with
    leftDelayLine := DelayLine.setSize ℝ delayBufferSize
    rightDelayLine := DelayLine.setSize ℝ delayBufferSize }
  c.updateLFO

/-- `ChorusEffect::setRate` (`ChorusEffect.cpp` lines 77–82). -/
noncomputable def ChorusEffect.setRate (c : ChorusEffect) (newRate : ℝ) : ChorusEffect :=
  ({ c with rate := jlimit 0.1 10.0 newRate }).updateLFO

/-- `ChorusEffect::setDepth` (`ChorusEffect.cpp` lines 84–88). -/
noncomputable def ChorusEffect.setDepth (c : ChorusEffect) (newDepth : ℝ) : ChorusEffect :=
  { c with depth := jlimit 0.0 1.0 newDepth }

/-- `ChorusEffect::setFeedback` (`ChorusEffect.cpp` lines 90–94). -/
noncomputable def ChorusEffect.setFeedback (c : ChorusEffect) (newFeedback : ℝ) :
    ChorusEffect :=
  { c with feedback := jlimit 0.0 0.95 newFeedback }

/-- `ChorusEffect::setMix` (`ChorusEffect.cpp` lines 96–100). -/
noncomputable def ChorusEffect.setMix (c : ChorusEffect) (newMix : ℝ) : ChorusEffect :=
  { c with mix := jlimit 0.0 1.0 newMix }

open Real in
/-- One iteration of the per-sample loop of `ChorusEffect::processBlock`
(`ChorusEffect.cpp` lines 39–74), for a stereo buffer: channel 0 uses
`leftDelayLine`, channel 1 uses `rightDelayLine`, and both use the same
`delayInSamples` computed from the LFO.  Returns the output sample pair and
the updated effect state. -/
noncomputable def ChorusEffect.processSample (c : ChorusEffect) (inL inR : ℝ) :
    (ℝ × ℝ) × ChorusEffect :=
  let lfoValue := sin (c.lfoPhase * (2 * π))
  let lfoPhase1 := c.lfoPhase + c.lfoPhaseIncrement
  let lfoPhase2 := if lfoPhase1 ≥ 1.0 then lfoPhase1 - 1.0 else lfoPhase1
  let modulatedDelay := baseDelayTime + (c.depth * maxDelayTime * 0.5 * (lfoValue + 1.0))
  let delayInSamples := modulatedDelay * c.sampleRate
  let delayedL := c.leftDelayLine.read delayInSamples
  let feedbackL := delayedL * c.feedback
  let left := c.leftDelayLine.write (inL + feedbackL)
  let outL := inL * (1.0 - c.mix) + delayedL * c.mix
  let delayedR := c.rightDelayLine.read delayInSamples
  let feedbackR := delayedR * c.feedback
  let right := c.rightDelayLine.write (inR + feedbackR)
  let outR := inR * (1.0 - c.mix) + delayedR * c.mix
  ((outL, outR),
    { c with lfoPhase := lfoPhase2, leftDelayLine := left, rightDelayLine := right })

/-- `ChorusEffect::processBlock` (`ChorusEffect.cpp` lines 33–75) on a stereo
buffer given as a list of (left, right) pairs. -/
noncomputable def ChorusEffect.processBlock (c : ChorusEffect) :
    List (ℝ × ℝ) → List (ℝ × ℝ) × ChorusEffect
  | [] => ([], c)
  | (l, r) :: rest =>
      let step := c.processSample l r
      let tail := step.2.processBlock rest
      (step.1 :: tail.1, tail.2)

/-- Consecutive `processBlock` calls on a sequence of blocks (the delay-line
contents persist across blocks). -/
noncomputable def ChorusEffect.processBlocks (c : ChorusEffect) :
    List (List (ℝ × ℝ)) → List (List (ℝ × ℝ)) × ChorusEffect
  | [] => ([], c)
  | b :: bs =>
      let step := c.processBlock b
      let tail := step.2.processBlocks bs
      (step.1 :: tail.1, tail.2)

/-! ## The MIDI drain loop of `processBlock` (`PluginProcessor.cpp`
lines 300–324)

The loop walks the block's MIDI messages in order.  A note-on message pushes
the note's equal-tempered frequency into the host frequency parameter,
triggers `adsr.noteOn()` and `break`s out of the loop; a note-off message
triggers `adsr.noteOff()` and continues. -/

inductive MidiEvent where
  | noteOn (note : ℤ)
  | noteOff (note : ℤ)
deriving DecidableEq, Repr

def MidiEvent.isNoteOn : MidiEvent → Bool
  | .noteOn _ => true
  | .noteOff _ => false

/-- The envelope calls the loop makes, in order. -/
inductive EnvAction where
  | envNoteOn
  | envNoteOff
deriving DecidableEq, Repr

/-- `juce::MidiMessage::getMidiNoteInHertz (note)` =
`440 * 2^((note - 69) / 12)` (standard equal-tempered mapping). -/
noncomputable def getMidiNoteInHertz (note : ℤ) : ℝ :=
  440 * (2 : ℝ) ^ (((note : ℝ) - 69) / 12)

/-- Result of draining a block's MIDI messages: the envelope actions
triggered (in order) and the frequency pushed into the host frequency
parameter, if any. -/
structure MidiDrainResult where
  envActions : List EnvAction
  pushedFreq : Option ℝ

/-- The MIDI message loop of `AvSynthAudioProcessor::processBlock`
(`PluginProcessor.cpp` lines 300–324): note-off messages are processed and
the walk continues; the first note-on computes the note frequency, pushes it
into the frequency parameter, triggers envelope note-on and `break`s. -/
noncomputable def drainMidi : List MidiEvent → MidiDrainResult
  | [] => { envActions := [], pushedFreq := none }
  | .noteOn n :: _ =>
      { envActions := [.envNoteOn], pushedFreq := some (getMidiNoteInHertz n) }
  | .noteOff _ :: rest =>
      let r := drainMidi rest
      { envActions := .envNoteOff :: r.envActions, pushedFreq := r.pushedFreq }

/-- Number of note-off events in a block. -/
def countNoteOffs (evs : List MidiEvent) : ℕ :=
  (evs.filter fun e => !e.isNoteOn).length

/-! ## Helper lemmas about `jlimit` -/

theorem jlimit_eq_min_max {α : Type} [LinearOrder α] (lo hi v : α) (h : lo ≤ hi) :
    jlimit lo hi v = min hi (max lo v) := by
  unfold jlimit
  rcases lt_or_le v lo with h1 | h1
  · rw [if_pos h1, max_eq_left h1.le, min_eq_right h]
  · rw [if_neg (not_lt.mpr h1), max_eq_right h1]
    rcases lt_or_le hi v with h2 | h2
    · rw [if_pos h2, min_eq_left h2.le]
    · rw [if_neg (not_lt.mpr h2), min_eq_right h2]

theorem le_jlimit {α : Type} [LinearOrder α] (lo hi v : α) (h : lo ≤ hi) :
    lo ≤ jlimit lo hi v := by
  rw [jlimit_eq_min_max lo hi v h]
  exact le_min h (le_max_left lo v)

theorem jlimit_le {α : Type} [LinearOrder α] (lo hi v : α) (h : lo ≤ hi) :
    jlimit lo hi v ≤ hi := by
  rw [jlimit_eq_min_max lo hi v h]
  exact min_le_left _ _

/-! ## Claims about the oscillator parameter and the waveforms -/

/-- Claim C3: `getOscSample` is a pure function of (kind, phase angle θ)
returning, for every θ: `sin θ` for Sine; `+1` if `sin θ ≥ 0` else `−1` for
Square; `2·(θ/2π − floor(0.5 + θ/2π))` for Saw;
`2·|2·(θ/2π − floor(0.5+θ/2π))| − 1` for Triangle; and for Flute
`(sin θ + 0.3·sin 2θ + 0.15·sin 3θ + 0.05·sin 4θ + 0.08·sin 5θ) ·
(1 + 0.02·sin(0.1·θ)) · 0.8`. -/
theorem getOscSample_formulas (θ : ℝ) :
    getOscSample OscType.Sine θ = Real.sin θ ∧
    getOscSample OscType.Square θ = (if Real.sin θ ≥ 0 then 1 else -1) ∧
    getOscSample OscType.Saw θ =
      2 * (θ / (2 * Real.pi) - ⌊0.5 + θ / (2 * Real.pi)⌋) ∧
    getOscSample OscType.Triangle θ =
      2 * |2 * (θ / (2 * Real.pi) - ⌊0.5 + θ / (2 * Real.pi)⌋)| - 1 ∧
    getOscSample OscType.Flute θ =
      (Real.sin θ + 0.3 * Real.sin (2 * θ) + 0.15 * Real.sin (3 * θ) +
          0.05 * Real.sin (4 * θ) + 0.08 * Real.sin (5 * θ)) *
        (1 + 0.02 * Real.sin (0.1 * θ)) * 0.8 := by
  refine ⟨rfl, by norm_num [getOscSample], by norm_num [getOscSample],
    by norm_num [getOscSample], ?_⟩
  show getFluteWaveform θ = _
  unfold getFluteWaveform
  ring_nf

/-- Claim C2 is violated by the code: the oscillator choice parameter
(`createParameterLayout`, `PluginProcessor.cpp` lines 658–661) exposes only
four choices, in the order Sine, Saw, Square, Triangle, while the decode in
`ChainSettings::Get` casts the stored index through the `OscType` enum whose
declaration order is Sine, Square, Saw, Triangle, Flute.  Hence: choice
index 1 displays "Saw" but decodes to `OscType.Square`, choice index 2
displays "Square" but decodes to `OscType.Saw`, and "Flute" (which
`PluginEditor.cpp` line 517 itself expects at index 4) is absent from the
choice list. -/
theorem oscChoice_layout_mismatch :
    oscChoices.length = 4 ∧
    oscChoices.getD 1 "" = "Saw" ∧ castOscType 1 = OscType.Square ∧
    oscChoices.getD 2 "" = "Square" ∧ castOscType 2 = OscType.Saw ∧
    "Flute" ∉ oscChoices := by
  refine ⟨rfl, rfl, rfl, rfl, rfl, ?_⟩
  decide

/-- Claim C8: every value passed to `setRate`, `setDepth`, `setFeedback`,
`setMix` (including out-of-range values) is silently clamped into the valid
range — rate to `[0.1, 10]`, depth to `[0, 1]`, feedback to `[0, 0.95]`,
mix to `[0, 1]` — the stored value being `min hi (max lo v)`; the setters
are total functions (no error path). -/
theorem chorus_setters_clamp (c : ChorusEffect) (v : ℝ) :
    ((c.setRate v).rate = min 10.0 (max 0.1 v) ∧
      0.1 ≤ (c.setRate v).rate ∧ (c.setRate v).rate ≤ 10.0) ∧
    ((c.setDepth v).depth = min 1.0 (max 0.0 v) ∧
      0.0 ≤ (c.setDepth v).depth ∧ (c.setDepth v).depth ≤ 1.0) ∧
    ((c.setFeedback v).feedback = min 0.95 (max 0.0 v) ∧
      0.0 ≤ (c.setFeedback v).feedback ∧ (c.setFeedback v).feedback ≤ 0.95) ∧
    ((c.setMix v).mix = min 1.0 (max 0.0 v) ∧
      0.0 ≤ (c.setMix v).mix ∧ (c.setMix v).mix ≤ 1.0) := by
  have h1 : (0.1 : ℝ) ≤ 10.0 := by norm_num
  have h2 : (0.0 : ℝ) ≤ 1.0 := by norm_num
  have h3 : (0.0 : ℝ) ≤ 0.95 := by norm_num
  refine ⟨⟨?_, ?_, ?_⟩, ⟨?_, ?_, ?_⟩, ⟨?_, ?_, ?_⟩, ⟨?_, ?_, ?_⟩⟩
  · simpa [ChorusEffect.setRate, ChorusEffect.updateLFO] using
      jlimit_eq_min_max (0.1 : ℝ) 10.0 v h1
  · simpa [ChorusEffect.setRate, ChorusEffect.updateLFO] using
      le_jlimit (0.1 : ℝ) 10.0 v h1
  · simpa [ChorusEffect.setRate, ChorusEffect.updateLFO] using
      jlimit_le (0.1 : ℝ) 10.0 v h1
  · simpa [ChorusEffect.setDepth] using jlimit_eq_min_max (0.0 : ℝ) 1.0 v h2
  · simpa [ChorusEffect.setDepth] using le_jlimit (0.0 : ℝ) 1.0 v h2
  · simpa [ChorusEffect.setDepth] using jlimit_le (0.0 : ℝ) 1.0 v h2
  · simpa [ChorusEffect.setFeedback] using jlimit_eq_min_max (0.0 : ℝ) 0.95 v h3
  · simpa [ChorusEffect.setFeedback] using le_jlimit (0.0 : ℝ) 0.95 v h3
  · simpa [ChorusEffect.setFeedback] using jlimit_le (0.0 : ℝ) 0.95 v h3
  · simpa [ChorusEffect.setMix] using jlimit_eq_min_max (0.0 : ℝ) 1.0 v h2
  · simpa [ChorusEffect.setMix] using le_jlimit (0.0 : ℝ) 1.0 v h2
  · simpa [ChorusEffect.setMix] using jlimit_le (0.0 : ℝ) 1.0 v h2

/-! ## Claims about `LinearRamp` -/

theorem LinearRamp.run_add {α : Type} [DivisionRing α] (r : LinearRamp α) (a b : ℕ) :
    r.run (a + b) = (r.run a).run b := by
  induction b with
  | zero => rfl
  | succ b ih => rw [← Nat.add_assoc, LinearRamp.run, ih, LinearRamp.run]

theorem LinearRamp.getNext_of_nonpos {α : Type} [DivisionRing α] (r : LinearRamp α)
    (h : r.remainingSteps ≤ 0) : r.getNext.2 = r := by
  cases r with
  | mk c i s => simp [LinearRamp.getNext, not_lt.mpr h]

theorem LinearRamp.run_of_nonpos {α : Type} [DivisionRing α] (r : LinearRamp α)
    (h : r.remainingSteps ≤ 0) (k : ℕ) : r.run k = r := by
  induction k with
  | zero => rfl
  | succ k ih => rw [LinearRamp.run, ih, LinearRamp.getNext_of_nonpos r h]

/-- State of a freshly reset ramp after `k ≤ N` calls: the current value has
accumulated `k` increments and `N - k` steps remain. -/
theorem LinearRamp.run_reset_of_le {α : Type} [Field α] (start e : α) (N : ℕ)
    (hN : 0 < N) (k : ℕ) (hk : k ≤ N) :
    (LinearRamp.reset start e (N : ℤ)).run k =
      { current := start + (k : α) * ((e - start) / (N : α))
        increment := (e - start) / (N : α)
        remainingSteps := (N : ℤ) - k } := by
  induction k with
  | zero =>
      have hN' : (0 : ℤ) < (N : ℤ) := by exact_mod_cast hN
      simp [LinearRamp.run, LinearRamp.reset, hN']
  | succ k ih =>
      have hk' : k ≤ N := Nat.le_of_succ_le hk
      have hrem : (0 : ℤ) < (N : ℤ) - k := by omega
      rw [LinearRamp.run, ih hk']
      simp only [LinearRamp.getNext, LinearRamp.mk.injEq, hrem, if_pos]
      refine ⟨by push_cast; ring, trivial, by push_cast; ring⟩

/-- Claim C6: after `reset(start, end, N)` with `N ≥ 1`, the first `getNext`
call returns `start`, the `N`-th call returns
`start + (N − 1) · increment` with `increment = (end − start)/N`, and every
call after the `N`-th returns `end`, indefinitely.  (The `k`-th call returns
the `current` value of the state after `k − 1` calls.) -/
theorem linearRamp_exact {α : Type} [Field α] [CharZero α] (start e : α) (N : ℕ)
    (hN : 1 ≤ N) :
    ((LinearRamp.reset start e (N : ℤ)).run 0).current = start ∧
    ((LinearRamp.reset start e (N : ℤ)).run (N - 1)).current =
      start + ((N : α) - 1) * ((e - start) / (N : α)) ∧
    ∀ k : ℕ, N ≤ k → ((LinearRamp.reset start e (N : ℤ)).run k).current = e := by
  have hN0 : 0 < N := hN
  have hNa : (N : α) ≠ 0 := Nat.cast_ne_zero.mpr hN0.ne'
  refine ⟨rfl, ?_, ?_⟩
  · rw [LinearRamp.run_reset_of_le start e N hN0 (N - 1) (Nat.sub_le N 1)]
    have : ((N - 1 : ℕ) : α) = (N : α) - 1 := by
      push_cast [hN]
      ring
    rw [this]
  · intro k hk
    have hrunN : (LinearRamp.reset start e (N : ℤ)).run N =
        { current := start + (N : α) * ((e - start) / (N : α))
          increment := (e - start) / (N : α)
          remainingSteps := (N : ℤ) - N } :=
      LinearRamp.run_reset_of_le start e N hN0 N le_rfl
    have hcur : start + (N : α) * ((e - start) / (N : α)) = e := by
      field_simp
    obtain ⟨m, rfl⟩ : ∃ m, k = N + m := ⟨k - N, by omega⟩
    rw [LinearRamp.run_add, hrunN,
      LinearRamp.run_of_nonpos _ (by simp) m, hcur]

/-- Witness for `linearRamp_exact` at `α = ℚ`, `start = 0`, `end = 8`,
`N = 4`. -/
theorem linearRamp_exact_witness :
    1 ≤ 4 ∧
    ((LinearRamp.reset (0 : ℚ) 8 ((4 : ℕ) : ℤ)).run 0).current = 0 ∧
    ((LinearRamp.reset (0 : ℚ) 8 ((4 : ℕ) : ℤ)).run (4 - 1)).current =
      0 + (((4 : ℕ) : ℚ) - 1) * ((8 - 0) / ((4 : ℕ) : ℚ)) ∧
    ((LinearRamp.reset (0 : ℚ) 8 ((4 : ℕ) : ℤ)).run 6).current = 8 :=
  ⟨by decide, (linearRamp_exact (0 : ℚ) 8 4 (by decide)).1,
    (linearRamp_exact (0 : ℚ) 8 4 (by decide)).2.1,
    (linearRamp_exact (0 : ℚ) 8 4 (by decide)).2.2 6 (by decide)⟩

/-- Claim C10: `reset(start, end, steps)` with `steps ≤ 0` sets the
increment to zero and every subsequent `getNext` call returns `start` — not
`end` — indefinitely. -/
theorem linearRamp_nonpositive_steps {α : Type} [Field α] (start e : α)
    (steps : ℤ) (h : steps ≤ 0) (k : ℕ) :
    (LinearRamp.reset start e steps).increment = 0 ∧
    ((LinearRamp.reset start e steps).run k).current = start := by
  have hrem : (LinearRamp.reset start e steps).remainingSteps ≤ 0 := h
  refine ⟨?_, ?_⟩
  · simp [LinearRamp.reset, not_lt.mpr h]
  · rw [LinearRamp.run_of_nonpos _ hrem k]
    rfl

/-- Witness for `linearRamp_nonpositive_steps` at `α = ℚ`, `start = 3`,
`end = 7`, `steps = -2`, 5 calls. -/
theorem linearRamp_nonpositive_steps_witness :
    (-2 : ℤ) ≤ 0 ∧
    (LinearRamp.reset (3 : ℚ) 7 (-2)).increment = 0 ∧
    ((LinearRamp.reset (3 : ℚ) 7 (-2)).run 5).current = 3 :=
  ⟨by decide, (linearRamp_nonpositive_steps (3 : ℚ) 7 (-2) (by decide) 5).1,
    (linearRamp_nonpositive_steps (3 : ℚ) 7 (-2) (by decide) 5).2⟩

/-! ## Claims about `DelayLine` -/

theorem wrapIndex_eq_mul_fract {α : Type} [LinearOrderedField α] [FloorRing α]
    (x : α) (S : ℕ) (hS : 0 < S) :
    wrapIndex x S = (S : α) * Int.fract (x / (S : α)) := by
  have hS0 : (S : α) ≠ 0 := (Nat.cast_pos.mpr hS).ne'
  unfold wrapIndex
  rw [Int.fract, mul_sub, mul_div_cancel₀ _ hS0]

theorem wrapIndex_nonneg {α : Type} [LinearOrderedField α] [FloorRing α]
    (x : α) (S : ℕ) (hS : 0 < S) : 0 ≤ wrapIndex x S := by
  rw [wrapIndex_eq_mul_fract x S hS]
  exact mul_nonneg (Nat.cast_nonneg S) (Int.fract_nonneg _)

theorem wrapIndex_lt {α : Type} [LinearOrderedField α] [FloorRing α]
    (x : α) (S : ℕ) (hS : 0 < S) : wrapIndex x S < S := by
  rw [wrapIndex_eq_mul_fract x S hS]
  have hSpos : (0 : α) < S := Nat.cast_pos.mpr hS
  calc (S : α) * Int.fract (x / S) < (S : α) * 1 :=
        (mul_lt_mul_left hSpos).mpr (Int.fract_lt_one _)
    _ = S := mul_one _

theorem wrapIndex_intCast {α : Type} [LinearOrderedField α] [FloorRing α]
    (k : ℤ) (S : ℕ) (hS : 0 < S) :
    wrapIndex ((k : α)) S = ((k % (S : ℤ) : ℤ) : α) := by
  have hS0 : (S : α) ≠ 0 := (Nat.cast_pos.mpr hS).ne'
  rw [wrapIndex_eq_mul_fract _ S hS, Int.fract_div_intCast_eq_div_intCast_mod,
    mul_div_cancel₀ _ hS0]

theorem DelayLine.length_write {α : Type} (d : DelayLine α) (x : α) :
    (d.write x).buffer.length = d.buffer.length := by
  simp [DelayLine.write]

theorem DelayLine.length_writeAll {α : Type} (d : DelayLine α) (xs : List α) :
    (d.writeAll xs).buffer.length = d.buffer.length := by
  induction xs generalizing d with
  | nil => rfl
  | cons x xs ih =>
      show ((d.write x).writeAll xs).buffer.length = _
      rw [ih, DelayLine.length_write]

theorem DelayLine.writeIndex_write {α : Type} (d : DelayLine α) (x : α) :
    (d.write x).writeIndex = (d.writeIndex + 1) % d.buffer.length := rfl

theorem DelayLine.writeIndex_writeAll {α : Type} (d : DelayLine α) (xs : List α)
    (h : d.writeIndex < d.buffer.length) :
    (d.writeAll xs).writeIndex = (d.writeIndex + xs.length) % d.buffer.length := by
  induction xs generalizing d with
  | nil => simp [DelayLine.writeAll, Nat.mod_eq_of_lt h]
  | cons x xs ih =>
      have hpos : 0 < d.buffer.length := by omega
      have h2 : (d.write x).writeIndex < (d.write x).buffer.length := by
        rw [DelayLine.writeIndex_write, DelayLine.length_write]
        exact Nat.mod_lt _ (by omega)
      show ((d.write x).writeAll xs).writeIndex = _
      rw [ih _ h2, DelayLine.writeIndex_write, DelayLine.length_write,
        Nat.mod_add_mod]
      simp only [List.length_cons]
      congr 1
      omega

/-- Reading at a natural-number (integer) delay: the interpolation fraction
vanishes and `read` returns the single buffer entry at position
`(writeIndex - d) mod size`. -/
theorem DelayLine.read_natCast {α : Type} [LinearOrderedField α] [FloorRing α]
    (dl : DelayLine α) (hS : 0 < dl.buffer.length) (d : ℕ) :
    dl.read (d : α) =
      dl.buffer.getD (((dl.writeIndex : ℤ) - d) % (dl.buffer.length : ℤ)).toNat 0 := by
  have hcast : ((dl.writeIndex : α) - (d : α)) = (((dl.writeIndex : ℤ) - d : ℤ) : α) := by
    push_cast
    ring
  have hmodnn : 0 ≤ ((dl.writeIndex : ℤ) - d) % (dl.buffer.length : ℤ) :=
    Int.emod_nonneg _ (by exact_mod_cast hS.ne')
  have hwrap : wrapIndex ((dl.writeIndex : α) - (d : α)) dl.buffer.length =
      ((((dl.writeIndex : ℤ) - d) % (dl.buffer.length : ℤ) : ℤ) : α) := by
    rw [hcast, wrapIndex_intCast _ _ hS]
  have hfloor : ⌊((((dl.writeIndex : ℤ) - d) % (dl.buffer.length : ℤ) : ℤ) : α)⌋ =
      ((dl.writeIndex : ℤ) - d) % (dl.buffer.length : ℤ) := Int.floor_intCast _
  have hfrac : ((((dl.writeIndex : ℤ) - d) % (dl.buffer.length : ℤ)).toNat : α) =
      ((((dl.writeIndex : ℤ) - d) % (dl.buffer.length : ℤ) : ℤ) : α) := by
    exact_mod_cast congrArg (fun z : ℤ => (z : α)) (Int.toNat_of_nonneg hmodnn)
  show dl.buffer.getD _ 0 * (1 - _) + dl.buffer.getD _ 0 * _ = _
  rw [hwrap, hfloor, hfrac, sub_self, mul_zero, add_zero, sub_zero, mul_one]

/-- Content of the circular buffer after a sequence of writes into a fresh
delay line: position `m % S` holds the `m`-th written sample, provided no
more than `S` further samples (that sample included) have been written
since. -/
theorem DelayLine.getD_writeAll_setSize {α : Type} [LinearOrderedField α] [FloorRing α]
    (S : ℕ) (hS : 0 < S) (xs : List α) (m : ℕ)
    (hm : m < xs.length) (hms : xs.length - m ≤ S) :
    ((DelayLine.setSize α S).writeAll xs).buffer.getD (m % S) 0 = xs.getD m 0 := by
  induction xs using List.reverseRecOn with
  | nil => simp at hm
  | append_singleton ys x ih =>
      have hlenys : ((DelayLine.setSize α S).writeAll ys).buffer.length = S := by
        rw [DelayLine.length_writeAll]
        simp [DelayLine.setSize]
      have hwys : ((DelayLine.setSize α S).writeAll ys).writeIndex = ys.length % S := by
        rw [DelayLine.writeIndex_writeAll]
        · simp [DelayLine.setSize]
        · simp [DelayLine.setSize, hS]
      have happ : (DelayLine.setSize α S).writeAll (ys ++ [x]) =
          ((DelayLine.setSize α S).writeAll ys).write x := by
        unfold DelayLine.writeAll
        rw [List.foldl_append]
        rfl
      rw [happ]
      rcases Nat.lt_or_ge m ys.length with hmy | hmy
      · have hne : ys.length % S ≠ m % S := by
          intro heq
          have hdvd : S ∣ ys.length - m := (Nat.modEq_iff_dvd' hmy.le).mp heq.symm
          have : S ≤ ys.length - m := Nat.le_of_dvd (by omega) hdvd
          simp only [List.length_append, List.length_singleton] at hms
          omega
        have hset : (((DelayLine.setSize α S).writeAll ys).write x).buffer.getD (m % S) 0 =
            ((DelayLine.setSize α S).writeAll ys).buffer.getD (m % S) 0 := by
          unfold DelayLine.write
          simp only [List.getD_eq_getElem?_getD]
          rw [hwys, List.getElem?_set_ne hne]
        rw [hset, ih hmy (by simp only [List.length_append, List.length_singleton] at hms; omega)]
        rw [List.getD_eq_getElem?_getD, List.getD_eq_getElem?_getD,
          List.getElem?_append_left hmy]
      · have hmeq : m = ys.length := by
          simp only [List.length_append, List.length_singleton] at hm
          omega
        subst hmeq
        have hset : (((DelayLine.setSize α S).writeAll ys).write x).buffer.getD
            (ys.length % S) 0 = x := by
          unfold DelayLine.write
          simp only [List.getD_eq_getElem?_getD]
          rw [hwys, List.getElem?_set_eq_of_lt x (by rw [hlenys]; exact Nat.mod_lt _ hS)]
          rfl
        rw [hset, List.getD_eq_getElem?_getD, List.getElem?_append_right le_rfl]
        simp

/-- Claim C7: for a `DelayLine` of size `S`, after writing any sequence of
samples, `read(d)` at an integer delay `d` with `1 ≤ d < S` (and at least
`d` samples written) returns exactly the sample written `d` write-calls
earlier; the interpolation fraction is zero at integer delays. -/
theorem delayLine_integer_delay_roundtrip {α : Type} [LinearOrderedField α] [FloorRing α]
    (S : ℕ) (hS : 1 ≤ S) (xs : List α) (d : ℕ) (hd1 : 1 ≤ d) (hdS : d < S)
    (hdn : d ≤ xs.length) :
    ((DelayLine.setSize α S).writeAll xs).read (d : α) = xs.getD (xs.length - d) 0 := by
  set dl := (DelayLine.setSize α S).writeAll xs with hdl
  have hlen : dl.buffer.length = S := by
    rw [hdl, DelayLine.length_writeAll]
    simp [DelayLine.setSize]
  have hw : dl.writeIndex = xs.length % S := by
    rw [hdl, DelayLine.writeIndex_writeAll]
    · simp [DelayLine.setSize]
    · simp [DelayLine.setSize]
      omega
  have hpos : 0 < dl.buffer.length := by omega
  rw [DelayLine.read_natCast dl hpos d]
  have hidx : (((dl.writeIndex : ℤ) - d) % (dl.buffer.length : ℤ)).toNat =
      (xs.length - d) % S := by
    rw [hw, hlen]
    have h1 : (((xs.length % S : ℕ) : ℤ) - d) % (S : ℤ) =
        (((xs.length - d) % S : ℕ) : ℤ) := by
      have h2 : ((xs.length % S : ℕ) : ℤ) = (xs.length : ℤ) % (S : ℤ) := by
        push_cast
        ring
      have h3 : (((xs.length - d) % S : ℕ) : ℤ) = ((xs.length : ℤ) - d) % (S : ℤ) := by
        push_cast [hdn]
        ring
      rw [h2, h3, Int.sub_emod ((xs.length : ℤ) % S), Int.sub_emod (xs.length : ℤ),
        Int.emod_emod_of_dvd _ dvd_rfl]
    rw [h1, Int.toNat_natCast]
  rw [hidx]
  exact DelayLine.getD_writeAll_setSize S (by omega) xs (xs.length - d)
    (by omega) (by omega)

/-- Witness for `delayLine_integer_delay_roundtrip` over `ℚ`: size 3,
writes `[5, 7]`, delay 1 reads back `7` (the sample written one call
earlier). -/
theorem delayLine_integer_delay_roundtrip_witness :
    1 ≤ 3 ∧ 1 ≤ 1 ∧ 1 < 3 ∧ 1 ≤ [(5 : ℚ), 7].length ∧
    ((DelayLine.setSize ℚ 3).writeAll [5, 7]).read ((1 : ℕ) : ℚ) =
      [(5 : ℚ), 7].getD ([(5 : ℚ), 7].length - 1) 0 :=
  ⟨by decide, by decide, by decide, by decide,
    delayLine_integer_delay_roundtrip 3 (by decide) [5, 7] 1 (by decide) (by decide)
      (by decide)⟩

/-- Claim C9: after `setSize(S)` with `S ≥ 1` and any sequence of writes the
write index stays in `[0, S)` (it is a natural number, so `0 ≤` holds by
type), and `read(d)` computes its read position `p` as `(writeIndex − d)`
wrapped modulo `S` — `0 ≤ p < S` with `(writeIndex − d) − p` an integer
multiple of `S` — interpolating linearly between the buffer entries at the
two nearest integer indices `⌊p⌋` and `(⌊p⌋ + 1) % S`. -/
theorem delayLine_cursor_invariant {α : Type} [LinearOrderedField α] [FloorRing α]
    (S : ℕ) (hS : 1 ≤ S) (xs : List α) :
    ((DelayLine.setSize α S).writeAll xs).writeIndex < S ∧
    ∀ (dS : α) (p : α),
      p = wrapIndex ((((DelayLine.setSize α S).writeAll xs).writeIndex : α) - dS) S →
      0 ≤ p ∧ p < S ∧
      (∃ k : ℤ,
        ((((DelayLine.setSize α S).writeAll xs).writeIndex : α) - dS) - p = (k : α) * S) ∧
      ((DelayLine.setSize α S).writeAll xs).read dS =
        ((DelayLine.setSize α S).writeAll xs).buffer.getD (⌊p⌋).toNat 0 *
            (1 - (p - ((⌊p⌋).toNat : α))) +
          ((DelayLine.setSize α S).writeAll xs).buffer.getD (((⌊p⌋).toNat + 1) % S) 0 *
            (p - ((⌊p⌋).toNat : α)) := by
  have hlen : ((DelayLine.setSize α S).writeAll xs).buffer.length = S := by
    rw [DelayLine.length_writeAll]
    simp [DelayLine.setSize]
  constructor
  · rw [DelayLine.writeIndex_writeAll]
    · simp only [DelayLine.setSize, List.length_replicate, Nat.zero_add]
      exact Nat.mod_lt _ (by omega)
    · simp [DelayLine.setSize]
      omega
  · intro dS p hp
    subst hp
    refine ⟨wrapIndex_nonneg _ S (by omega), wrapIndex_lt _ S (by omega), ?_, ?_⟩
    · refine ⟨⌊((((DelayLine.setSize α S).writeAll xs).writeIndex : α) - dS) / S⌋, ?_⟩
      unfold wrapIndex
      ring
    · simp only [DelayLine.read]
      rw [hlen]

/-- Witness for `delayLine_cursor_invariant` over `ℚ`: size 2, no writes,
fractional delay `3/2`. -/
theorem delayLine_cursor_invariant_witness :
    1 ≤ 2 ∧
    ((DelayLine.setSize ℚ 2).writeAll []).writeIndex < 2 ∧
    (0 ≤ wrapIndex ((((DelayLine.setSize ℚ 2).writeAll []).writeIndex : ℚ) - 3 / 2) 2 ∧
      wrapIndex ((((DelayLine.setSize ℚ 2).writeAll []).writeIndex : ℚ) - 3 / 2) 2 <
        ((2 : ℕ) : ℚ) ∧
      (∃ k : ℤ,
        ((((DelayLine.setSize ℚ 2).writeAll []).writeIndex : ℚ) - 3 / 2) -
            wrapIndex ((((DelayLine.setSize ℚ 2).writeAll []).writeIndex : ℚ) - 3 / 2) 2 =
          (k : ℚ) * ((2 : ℕ) : ℚ)) ∧
      ((DelayLine.setSize ℚ 2).writeAll []).read (3 / 2) =
        ((DelayLine.setSize ℚ 2).writeAll []).buffer.getD
            (⌊wrapIndex ((((DelayLine.setSize ℚ 2).writeAll []).writeIndex : ℚ) - 3 / 2)
              2⌋).toNat 0 *
            (1 -
              (wrapIndex ((((DelayLine.setSize ℚ 2).writeAll []).writeIndex : ℚ) - 3 / 2) 2 -
                ((⌊wrapIndex ((((DelayLine.setSize ℚ 2).writeAll []).writeIndex : ℚ) - 3 / 2)
                  2⌋).toNat : ℚ))) +
          ((DelayLine.setSize ℚ 2).writeAll []).buffer.getD
              (((⌊wrapIndex ((((DelayLine.setSize ℚ 2).writeAll []).writeIndex : ℚ) - 3 / 2)
                2⌋).toNat + 1) % 2) 0 *
            (wrapIndex ((((DelayLine.setSize ℚ 2).writeAll []).writeIndex : ℚ) - 3 / 2) 2 -
              ((⌊wrapIndex ((((DelayLine.setSize ℚ 2).writeAll []).writeIndex : ℚ) - 3 / 2)
                2⌋).toNat : ℚ))) :=
  ⟨by decide, (delayLine_cursor_invariant 2 (by decide) ([] : List ℚ)).1,
    (delayLine_cursor_invariant 2 (by decide) ([] : List ℚ)).2 (3 / 2) _ rfl⟩

/-! ## Claims about `ChorusEffect` -/

/-- Claim C4: for every sample processed by `ChorusEffect::processBlock`,
with `lfo = sin(2π·lfoPhase)` and modulated delay
`baseDelayTime + depth·maxDelayTime·0.5·(lfo+1)` converted to samples by
multiplying with the sample rate: each channel reads its delayed sample by
linear interpolation at that common delay from its own delay line, writes
`input + delayed·feedback` into that delay line, and outputs
`input·(1−mix) + delayed·mix`; and `processBlock` is exactly the per-sample
step iterated over the block. -/
theorem chorus_processSample_spec (c : ChorusEffect) (inL inR : ℝ) :
    (c.processSample inL inR).1 =
      (inL * (1 - c.mix) +
          c.leftDelayLine.read
            ((baseDelayTime +
                c.depth * maxDelayTime * 0.5 * (Real.sin (2 * Real.pi * c.lfoPhase) + 1)) *
              c.sampleRate) * c.mix,
        inR * (1 - c.mix) +
          c.rightDelayLine.read
            ((baseDelayTime +
                c.depth * maxDelayTime * 0.5 * (Real.sin (2 * Real.pi * c.lfoPhase) + 1)) *
              c.sampleRate) * c.mix) ∧
    (c.processSample inL inR).2.leftDelayLine =
      c.leftDelayLine.write
        (inL +
          c.leftDelayLine.read
            ((baseDelayTime +
                c.depth * maxDelayTime * 0.5 * (Real.sin (2 * Real.pi * c.lfoPhase) + 1)) *
              c.sampleRate) * c.feedback) ∧
    (c.processSample inL inR).2.rightDelayLine =
      c.rightDelayLine.write
        (inR +
          c.rightDelayLine.read
            ((baseDelayTime +
                c.depth * maxDelayTime * 0.5 * (Real.sin (2 * Real.pi * c.lfoPhase) + 1)) *
              c.sampleRate) * c.feedback) ∧
    (∀ (rest : List (ℝ × ℝ)),
      c.processBlock ((inL, inR) :: rest) =
        ((c.processSample inL inR).1 ::
            ((c.processSample inL inR).2.processBlock rest).1,
          ((c.processSample inL inR).2.processBlock rest).2)) := by
  have h1 : (1.0 : ℝ) = 1 := by norm_num
  refine ⟨?_, ?_, ?_, fun rest => rfl⟩ <;>
    simp only [ChorusEffect.processSample, h1, mul_comm c.lfoPhase (2 * Real.pi)]

/-- All samples stored in a delay line are bounded by `B` in absolute
value. -/
def DelayLine.Bounded (B : ℝ) (dl : DelayLine ℝ) : Prop :=
  ∀ x ∈ dl.buffer, |x| ≤ B

theorem abs_getD_le (l : List ℝ) (B : ℝ) (hB : 0 ≤ B) (h : ∀ x ∈ l, |x| ≤ B)
    (i : ℕ) : |l.getD i 0| ≤ B := by
  rcases lt_or_le i l.length with hi | hi
  · rw [List.getD_eq_getElem l 0 hi]
    exact h _ (List.getElem_mem hi)
  · rw [List.getD_eq_default l 0 hi]
    simpa using hB

theorem convex_abs_bound (a b f A B : ℝ) (ha : |a| ≤ A) (hb : |b| ≤ B)
    (hf0 : 0 ≤ f) (hf1 : f ≤ 1) :
    |a * (1 - f) + b * f| ≤ A * (1 - f) + B * f :=
  calc |a * (1 - f) + b * f| ≤ |a * (1 - f)| + |b * f| := abs_add _ _
    _ = |a| * (1 - f) + |b| * f := by
        rw [abs_mul, abs_mul, abs_of_nonneg (by linarith : (0 : ℝ) ≤ 1 - f),
          abs_of_nonneg hf0]
    _ ≤ A * (1 - f) + B * f :=
        add_le_add (mul_le_mul_of_nonneg_right ha (by linarith))
          (mul_le_mul_of_nonneg_right hb hf0)

/-- A delayed read is a convex combination of two buffer entries, hence
bounded by any bound on the buffer contents. -/
theorem DelayLine.abs_read_le (dl : DelayLine ℝ) (B : ℝ) (hB : 0 ≤ B)
    (hlen : 0 < dl.buffer.length) (h : DelayLine.Bounded B dl) (dS : ℝ) :
    |dl.read dS| ≤ B := by
  have hp0 : 0 ≤ wrapIndex ((dl.writeIndex : ℝ) - dS) dl.buffer.length :=
    wrapIndex_nonneg _ _ hlen
  set p := wrapIndex ((dl.writeIndex : ℝ) - dS) dl.buffer.length with hp
  have htn : (((⌊p⌋).toNat : ℕ) : ℝ) = ((⌊p⌋ : ℤ) : ℝ) := by
    exact_mod_cast congrArg (fun z : ℤ => (z : ℝ))
      (Int.toNat_of_nonneg (Int.floor_nonneg.mpr hp0))
  have hf0 : 0 ≤ p - (((⌊p⌋).toNat : ℕ) : ℝ) := by
    rw [htn]
    exact sub_nonneg.mpr (Int.floor_le p)
  have hf1 : p - (((⌊p⌋).toNat : ℕ) : ℝ) ≤ 1 := by
    rw [htn]
    have := Int.lt_floor_add_one p
    linarith
  have hb1 : |dl.buffer.getD (⌊p⌋).toNat 0| ≤ B := abs_getD_le _ B hB h _
  have hb2 : |dl.buffer.getD (((⌊p⌋).toNat + 1) % dl.buffer.length) 0| ≤ B :=
    abs_getD_le _ B hB h _
  have hread : dl.read dS =
      dl.buffer.getD (⌊p⌋).toNat 0 * (1 - (p - (((⌊p⌋).toNat : ℕ) : ℝ))) +
        dl.buffer.getD (((⌊p⌋).toNat + 1) % dl.buffer.length) 0 *
          (p - (((⌊p⌋).toNat : ℕ) : ℝ)) := by
    simp only [DelayLine.read]
  rw [hread]
  calc |_ * (1 - (p - (((⌊p⌋).toNat : ℕ) : ℝ))) + _ * (p - (((⌊p⌋).toNat : ℕ) : ℝ))| ≤
        B * (1 - (p - (((⌊p⌋).toNat : ℕ) : ℝ))) + B * (p - (((⌊p⌋).toNat : ℕ) : ℝ)) :=
      convex_abs_bound _ _ _ B B hb1 hb2 hf0 hf1
    _ = B := by ring

theorem DelayLine.Bounded.write {B : ℝ} {dl : DelayLine ℝ} (h : DelayLine.Bounded B dl)
    {s : ℝ} (hs : |s| ≤ B) : DelayLine.Bounded B (dl.write s) := by
  intro x hx
  have hx2 : x ∈ dl.buffer.set dl.writeIndex s := hx
  rcases List.mem_or_eq_of_mem_set hx2 with hx' | rfl
  · exact h _ hx'
  · exact hs

/-- One chorus step preserves the 20-bound on the delay lines (for feedback
`≤ 0.95` and inputs `≤ 1`), and its outputs are bounded by 20. -/
theorem chorus_processSample_bounded (c : ChorusEffect) (inL inR : ℝ)
    (hlenL : 0 < c.leftDelayLine.buffer.length)
    (hlenR : 0 < c.rightDelayLine.buffer.length)
    (hbL : DelayLine.Bounded 20 c.leftDelayLine)
    (hbR : DelayLine.Bounded 20 c.rightDelayLine)
    (hfb0 : 0 ≤ c.feedback) (hfb : c.feedback ≤ 0.95)
    (hm0 : 0 ≤ c.mix) (hm1 : c.mix ≤ 1)
    (hL : |inL| ≤ 1) (hR : |inR| ≤ 1) :
    |(c.processSample inL inR).1.1| ≤ 20 ∧ |(c.processSample inL inR).1.2| ≤ 20 ∧
    0 < (c.processSample inL inR).2.leftDelayLine.buffer.length ∧
    0 < (c.processSample inL inR).2.rightDelayLine.buffer.length ∧
    DelayLine.Bounded 20 (c.processSample inL inR).2.leftDelayLine ∧
    DelayLine.Bounded 20 (c.processSample inL inR).2.rightDelayLine ∧
    (c.processSample inL inR).2.feedback = c.feedback ∧
    (c.processSample inL inR).2.mix = c.mix := by
  have hB : (0 : ℝ) ≤ 20 := by norm_num
  have h1 : (1.0 : ℝ) = 1 := by norm_num
  have hdL : ∀ dS : ℝ, |c.leftDelayLine.read dS| ≤ 20 :=
    DelayLine.abs_read_le _ 20 hB hlenL hbL
  have hdR : ∀ dS : ℝ, |c.rightDelayLine.read dS| ≤ 20 :=
    DelayLine.abs_read_le _ 20 hB hlenR hbR
  have hwrite : ∀ (x dl : ℝ), |x| ≤ 1 → |dl| ≤ 20 → |x + dl * c.feedback| ≤ 20 := by
    intro x dl hx hdl
    have habs : |dl * c.feedback| ≤ 20 * 0.95 :=
      abs_mul dl c.feedback ▸
        mul_le_mul hdl (by rwa [abs_of_nonneg hfb0]) (abs_nonneg _) hB
    calc |x + dl * c.feedback| ≤ |x| + |dl * c.feedback| := abs_add _ _
      _ ≤ 1 + 20 * 0.95 := add_le_add hx habs
      _ ≤ 20 := by norm_num
  have hout : ∀ (x dl : ℝ), |x| ≤ 1 → |dl| ≤ 20 →
      |x * (1 - c.mix) + dl * c.mix| ≤ 20 := by
    intro x dl hx hdl
    calc |x * (1 - c.mix) + dl * c.mix| ≤ 1 * (1 - c.mix) + 20 * c.mix :=
          convex_abs_bound _ _ _ 1 20 hx hdl hm0 hm1
      _ ≤ 20 := by nlinarith
  simp only [ChorusEffect.processSample, h1]
  exact ⟨hout inL _ hL (hdL _), hout inR _ hR (hdR _),
    by rw [DelayLine.length_write]; exact hlenL,
    by rw [DelayLine.length_write]; exact hlenR,
    hbL.write (hwrite inL _ hL (hdL _)), hbR.write (hwrite inR _ hR (hdR _)),
    trivial, trivial⟩

/-- A whole block preserves the 20-bound on the delay lines and yields
outputs bounded by 20; `feedback` and `mix` are untouched. -/
theorem chorus_processBlock_bounded (xs : List (ℝ × ℝ)) (c : ChorusEffect)
    (hlenL : 0 < c.leftDelayLine.buffer.length)
    (hlenR : 0 < c.rightDelayLine.buffer.length)
    (hbL : DelayLine.Bounded 20 c.leftDelayLine)
    (hbR : DelayLine.Bounded 20 c.rightDelayLine)
    (hfb0 : 0 ≤ c.feedback) (hfb : c.feedback ≤ 0.95)
    (hm0 : 0 ≤ c.mix) (hm1 : c.mix ≤ 1)
    (hin : ∀ q ∈ xs, |q.1| ≤ 1 ∧ |q.2| ≤ 1) :
    (∀ q ∈ (c.processBlock xs).1, |q.1| ≤ 20 ∧ |q.2| ≤ 20) ∧
    0 < (c.processBlock xs).2.leftDelayLine.buffer.length ∧
    0 < (c.processBlock xs).2.rightDelayLine.buffer.length ∧
    DelayLine.Bounded 20 (c.processBlock xs).2.leftDelayLine ∧
    DelayLine.Bounded 20 (c.processBlock xs).2.rightDelayLine ∧
    (c.processBlock xs).2.feedback = c.feedback ∧
    (c.processBlock xs).2.mix = c.mix := by
  induction xs generalizing c with
  | nil =>
      exact ⟨by simp [ChorusEffect.processBlock], hlenL, hlenR, hbL, hbR, rfl, rfl⟩
  | cons q rest ih =>
      obtain ⟨l, r⟩ := q
      have hq := hin (l, r) (List.mem_cons_self _ _)
      obtain ⟨hstep1, hstep2, hslenL, hslenR, hsbL, hsbR, hsfb, hsmix⟩ :=
        chorus_processSample_bounded c l r hlenL hlenR hbL hbR hfb0 hfb hm0 hm1
          hq.1 hq.2
      have hrest : ∀ p ∈ rest, |p.1| ≤ 1 ∧ |p.2| ≤ 1 := fun p hp =>
        hin p (List.mem_cons_of_mem _ hp)
      obtain ⟨htail, htlenL, htlenR, htbL, htbR, htfb, htmix⟩ :=
        ih (c.processSample l r).2 hslenL hslenR hsbL hsbR (hsfb ▸ hfb0)
          (hsfb ▸ hfb) (hsmix ▸ hm0) (hsmix ▸ hm1) hrest
      have hblock : c.processBlock ((l, r) :: rest) =
          ((c.processSample l r).1 :: ((c.processSample l r).2.processBlock rest).1,
            ((c.processSample l r).2.processBlock rest).2) := rfl
      rw [hblock]
      refine ⟨?_, htlenL, htlenR, htbL, htbR, htfb.trans hsfb, htmix.trans hsmix⟩
      intro p hp
      rcases List.mem_cons.mp hp with rfl | hp'
      · exact ⟨hstep1, hstep2⟩
      · exact htail p hp'

/-- Claim C5: for feedback in `[0, 0.95]`, mix and depth in `[0, 1]`, delay
lines whose contents are bounded by 20 (as they are after `prepare`, which
zero-fills them), and input samples bounded by 1 in absolute value, the
output of `processBlock` over an arbitrary number of consecutive blocks
stays bounded by the fixed constant 20, and the delay-line contents of the
final state remain bounded by 20 (no unbounded growth). -/
theorem chorus_output_bounded (c : ChorusEffect) (blocks : List (List (ℝ × ℝ)))
    (hlenL : 0 < c.leftDelayLine.buffer.length)
    (hlenR : 0 < c.rightDelayLine.buffer.length)
    (hbL : DelayLine.Bounded 20 c.leftDelayLine)
    (hbR : DelayLine.Bounded 20 c.rightDelayLine)
    (hfb0 : 0 ≤ c.feedback) (hfb : c.feedback ≤ 0.95)
    (hm0 : 0 ≤ c.mix) (hm1 : c.mix ≤ 1)
    (hd0 : 0 ≤ c.depth) (hd1 : c.depth ≤ 1)
    (hin : ∀ blk ∈ blocks, ∀ q ∈ blk, |q.1| ≤ 1 ∧ |q.2| ≤ 1) :
    (∀ ob ∈ (c.processBlocks blocks).1, ∀ q ∈ ob, |q.1| ≤ 20 ∧ |q.2| ≤ 20) ∧
    DelayLine.Bounded 20 (c.processBlocks blocks).2.leftDelayLine ∧
    DelayLine.Bounded 20 (c.processBlocks blocks).2.rightDelayLine := by
  clear hd0 hd1
  induction blocks generalizing c with
  | nil => exact ⟨by simp [ChorusEffect.processBlocks], hbL, hbR⟩
  | cons blk rest ih =>
      have hblk := hin blk (List.mem_cons_self _ _)
      obtain ⟨hout, hslenL, hslenR, hsbL, hsbR, hsfb, hsmix⟩ :=
        chorus_processBlock_bounded blk c hlenL hlenR hbL hbR hfb0 hfb hm0 hm1 hblk
      have hrest : ∀ b ∈ rest, ∀ q ∈ b, |q.1| ≤ 1 ∧ |q.2| ≤ 1 := fun b hb =>
        hin b (List.mem_cons_of_mem _ hb)
      obtain ⟨htail, htbL, htbR⟩ :=
        ih (c.processBlock blk).2 hslenL hslenR hsbL hsbR (hsfb ▸ hfb0) (hsfb ▸ hfb)
          (hsmix ▸ hm0) (hsmix ▸ hm1) hrest
      have hblocks : c.processBlocks (blk :: rest) =
          ((c.processBlock blk).1 :: ((c.processBlock blk).2.processBlocks rest).1,
            ((c.processBlock blk).2.processBlocks rest).2) := rfl
      rw [hblocks]
      refine ⟨?_, htbL, htbR⟩
      intro ob hob
      rcases List.mem_cons.mp hob with rfl | hob'
      · exact hout
      · exact htail ob hob'

/-- Witness for `chorus_output_bounded`: a concrete state with one-sample
delay buffers holding `0`, feedback `1/2`, mix `1/2`, depth `1/2`, driven
with a single one-sample block containing the full-scale impulse `(1, -1)`. -/
theorem chorus_output_bounded_witness :
    (∀ ob ∈ (ChorusEffect.mk 1 1 (1/2) (1/2) (1/2) 0 0
          (DelayLine.mk [0] 0) (DelayLine.mk [0] 0)).processBlocks [[(1, -1)]] |>.1,
        ∀ q ∈ ob, |q.1| ≤ 20 ∧ |q.2| ≤ 20) ∧
    DelayLine.Bounded 20 ((ChorusEffect.mk 1 1 (1/2) (1/2) (1/2) 0 0
        (DelayLine.mk [0] 0) (DelayLine.mk [0] 0)).processBlocks [[(1, -1)]]).2.leftDelayLine ∧
    DelayLine.Bounded 20 ((ChorusEffect.mk 1 1 (1/2) (1/2) (1/2) 0 0
        (DelayLine.mk [0] 0) (DelayLine.mk [0] 0)).processBlocks [[(1, -1)]]).2.rightDelayLine :=
  chorus_output_bounded
    (ChorusEffect.mk 1 1 (1/2) (1/2) (1/2) 0 0 (DelayLine.mk [0] 0) (DelayLine.mk [0] 0))
    [[(1, -1)]]
    (by simp) (by simp)
    (by intro x hx; simp at hx; simp [hx])
    (by intro x hx; simp at hx; simp [hx])
    (by norm_num) (by norm_num) (by norm_num) (by norm_num) (by norm_num) (by norm_num)
    (by intro blk hblk q hq; simp at hblk; subst hblk; simp at hq; subst hq; norm_num)

/-! ## Claims about the MIDI drain loop -/

theorem drainMidi_all_noteOff (evs : List MidiEvent)
    (h : ∀ e ∈ evs, e.isNoteOn = false) :
    drainMidi evs =
      { envActions := evs.map fun _ => EnvAction.envNoteOff, pushedFreq := none } := by
  induction evs with
  | nil => rfl
  | cons e rest ih =>
      cases e with
      | noteOn n => simpa [MidiEvent.isNoteOn] using h _ (List.mem_cons_self _ _)
      | noteOff m =>
          have hrest : ∀ x ∈ rest, x.isNoteOn = false := fun x hx =>
            h x (List.mem_cons_of_mem _ hx)
          show MidiDrainResult.mk (.envNoteOff :: (drainMidi rest).envActions)
              (drainMidi rest).pushedFreq = _
          rw [ih hrest]
          rfl

theorem drainMidi_first_noteOn (pre : List MidiEvent) (n : ℤ) (post : List MidiEvent)
    (h : ∀ e ∈ pre, e.isNoteOn = false) :
    drainMidi (pre ++ MidiEvent.noteOn n :: post) =
      { envActions := (pre.map fun _ => EnvAction.envNoteOff) ++ [EnvAction.envNoteOn],
        pushedFreq := some (getMidiNoteInHertz n) } := by
  induction pre with
  | nil => rfl
  | cons e pre' ih =>
      cases e with
      | noteOn m => simpa [MidiEvent.isNoteOn] using h _ (List.mem_cons_self _ _)
      | noteOff m =>
          have hpre' : ∀ x ∈ pre', x.isNoteOn = false := fun x hx =>
            h x (List.mem_cons_of_mem _ hx)
          show MidiDrainResult.mk
              (.envNoteOff :: (drainMidi (pre' ++ MidiEvent.noteOn n :: post)).envActions)
              (drainMidi (pre' ++ MidiEvent.noteOn n :: post)).pushedFreq = _
          rw [ih hpre']
          rfl

/-- Claim C1 fails on the code: in the block
`[noteOn 60, noteOff 60]` the note-off is *not* honored, because the MIDI
loop `break`s at the first note-on (`PluginProcessor.cpp` line 316) before
reaching it — the block contains one note-off event but zero envelope
note-off calls are made. -/
theorem midiDrain_noteOff_after_noteOn_dropped :
    countNoteOffs [MidiEvent.noteOn 60, MidiEvent.noteOff 60] = 1 ∧
    (drainMidi [MidiEvent.noteOn 60, MidiEvent.noteOff 60]).envActions.count
        EnvAction.envNoteOff = 0 ∧
    (drainMidi [MidiEvent.noteOn 60, MidiEvent.noteOff 60]).envActions =
      [EnvAction.envNoteOn] :=
  ⟨rfl, rfl, rfl⟩

/-- Claim C1 (amended): draining a block's MIDI messages honors the note-off
events that *precede* the first note-on (all note-off events when the block
has no note-on, each triggering envelope noteOff), and the first note-on,
which pushes the note's equal-tempered frequency into the host frequency
parameter and triggers envelope noteOn; processing stops there, so note-off
events after the first note-on are dropped. -/
theorem midiDrain_spec (evs : List MidiEvent) :
    ((∀ e ∈ evs, e.isNoteOn = false) →
      drainMidi evs =
        { envActions := evs.map fun _ => EnvAction.envNoteOff, pushedFreq := none }) ∧
    ∀ (pre : List MidiEvent) (n : ℤ) (post : List MidiEvent),
      evs = pre ++ MidiEvent.noteOn n :: post →
      (∀ e ∈ pre, e.isNoteOn = false) →
      drainMidi evs =
        { envActions := (pre.map fun _ => EnvAction.envNoteOff) ++ [EnvAction.envNoteOn],
          pushedFreq := some (getMidiNoteInHertz n) } := by
  refine ⟨drainMidi_all_noteOff evs, ?_⟩
  intro pre n post heq h
  rw [heq]
  exact drainMidi_first_noteOn pre n post h

/-- Witness for `midiDrain_spec`: a block of two note-offs, and a block
`[noteOff 50, noteOn 69, noteOff 50]` whose trailing note-off is dropped. -/
theorem midiDrain_spec_witness :
    (∀ e ∈ [MidiEvent.noteOff 50, MidiEvent.noteOff 51], e.isNoteOn = false) ∧
    drainMidi [MidiEvent.noteOff 50, MidiEvent.noteOff 51] =
      { envActions := [EnvAction.envNoteOff, EnvAction.envNoteOff]
        pushedFreq := none } ∧
    drainMidi [MidiEvent.noteOff 50, MidiEvent.noteOn 69, MidiEvent.noteOff 50] =
      { envActions := [EnvAction.envNoteOff, EnvAction.envNoteOn]
        pushedFreq := some (getMidiNoteInHertz 69) } :=
  ⟨by decide,
    (midiDrain_spec [MidiEvent.noteOff 50, MidiEvent.noteOff 51]).1 (by decide),
    (midiDrain_spec [MidiEvent.noteOff 50, MidiEvent.noteOn 69, MidiEvent.noteOff 50]).2
      [MidiEvent.noteOff 50] 69 [MidiEvent.noteOff 50] rfl (by decide)⟩

end AvSynth
